import Mathlib

set_option maxRecDepth 8000

/-!
Verification development for the dictation-practice application
(`src/app/page.tsx`).  The testable core consists of the word-by-word
match engine (the `wordStates` memo together with `normalize`) and the
sentence store (`sanitizeSentencesPayload`, export payload construction, the
handling of imports, and current-index clamping).  Strings are modelled as
lists of characters; every definition is a direct transcription of the
corresponding source function.
-/

namespace DictateEnglish

/-- Strings as the JavaScript code manipulates them: finite character lists. -/
abbrev JStr := List Char

/-- Convert a Lean string literal into the list-of-characters form used by the model. -/
def str (s : String) : JStr := s.data

/-- Model of the JavaScript whitespace character class used by the regexes in the source. -/
def isWsChar (c : Char) : Bool := c.isWhitespace

/-- The single space character written by the whitespace-collapsing replacement. -/
def spaceChar : Char := Char.ofNat 32

/-- Model of `String.prototype.trim`: drop whitespace from both ends. -/
def jsTrim (s : JStr) : JStr :=
  ((s.dropWhile isWsChar).reverse.dropWhile isWsChar).reverse

/-- One step (one character, processed right to left) of splitting a string on
whitespace runs, as `value.split(/\s+/)` does: a run of whitespace separates two
tokens, and runs touching the ends produce empty boundary tokens. -/
def splitRunsStep (c : Char) (acc : List JStr × Bool) : List JStr × Bool :=
  if isWsChar c then
    (if acc.2 then acc.1 else [] :: acc.1, true)
  else
    ((match acc.1 with
      | [] => [[c]]
      | t :: ts => (c :: t) :: ts), false)

/-- Model of `value.split(/\s+/)`. -/
def splitRuns (s : JStr) : List JStr :=
  (s.foldr splitRunsStep ([[]], false)).1

/-- One step of collapsing every whitespace run to a single space. -/
def collapseWsStep (c : Char) (acc : JStr × Bool) : JStr × Bool :=
  if isWsChar c then
    (if acc.2 then acc.1 else spaceChar :: acc.1, true)
  else
    (c :: acc.1, false)

/-- Model of `value.replace(/\s+/g, " ")`. -/
def collapseWs (s : JStr) : JStr :=
  (s.foldr collapseWsStep ([], false)).1

/-- `normalize` from the source: collapse whitespace runs to one space, then trim. -/
def normalize (s : JStr) : JStr := jsTrim (collapseWs s)

/-- Target tokenization from the source:
`currentSentence.text.split(/\s+/).filter(Boolean)`. -/
def targetWordsOf (target : JStr) : List JStr :=
  (splitRuns target).filter (fun w => !w.isEmpty)

/-- Typed tokenization from the source:
`inputValue.trim() ? inputValue.trim().split(/\s+/) : []`. -/
def typedWordsOf (typed : JStr) : List JStr :=
  if (jsTrim typed).isEmpty then [] else splitRuns (jsTrim typed)

/-- The three per-word statuses produced by the match scan. -/
inductive WordStatus where
  | correct
  | error
  | upcoming
deriving DecidableEq

/-- One entry of the `wordStates` array: the target word and its status. -/
structure WordState where
  word : JStr
  status : WordStatus
deriving DecidableEq

/-- The mismatch descriptor `{ expected, typed }` recorded by the scan. -/
structure Mismatch where
  expected : JStr
  typed : JStr
deriving DecidableEq

/-- The derived match state: per-word statuses plus at most one mismatch. -/
structure MatchResult where
  wordStates : List WordState
  mismatch : Option Mismatch
deriving DecidableEq

/-- The left-to-right scan over the target words from the `wordStates` memo.
`i` is the current position, `found` the mismatch latch (`mismatchFound`), and
`mm` the mismatch recorded so far. -/
def scanGo (typedWords : List JStr) (i : Nat) (found : Bool) (mm : Option Mismatch) :
    List JStr → List WordState × Option Mismatch
  | [] => ([], mm)
  | w :: rest =>
    if found then
      let r := scanGo typedWords (i + 1) true mm rest
      (⟨w, .upcoming⟩ :: r.1, r.2)
    else
      match typedWords[i]? with
      | none =>
        let r := scanGo typedWords (i + 1) false mm rest
        (⟨w, .upcoming⟩ :: r.1, r.2)
      | some tw =>
        if tw = w then
          let r := scanGo typedWords (i + 1) false mm rest
          (⟨w, .correct⟩ :: r.1, r.2)
        else
          let r := scanGo typedWords (i + 1) true (some ⟨w, tw⟩) rest
          (⟨w, .error⟩ :: r.1, r.2)

/-- The whole `wordStates`/`mismatch` computation of the source for one
(target sentence, typed input) pair: run the scan, then detect an excess typed
word (`!mismatch && typedWords.length > targetWords.length`). -/
def computeMatch (target typed : JStr) : MatchResult :=
  let targetWords := targetWordsOf target
  let typedWords := typedWordsOf typed
  let scanned := scanGo typedWords 0 false none targetWords
  let mm :=
    if scanned.2 = none ∧ targetWords.length < typedWords.length then
      some ⟨[], typedWords.getD targetWords.length []⟩
    else scanned.2
  ⟨scanned.1, mm⟩

/-- Spec-side helper: position `k` holds a typed word that differs from the
target word there ("present but wrong"). -/
def presentWrong (t tw : List JStr) (k : Nat) : Bool :=
  match tw[k]? with
  | none => false
  | some x => !(decide (t[k]? = some x))

/-- Spec-side helper: the mismatch latch is set when position `j` is reached,
i.e. some earlier position already held a present-but-wrong typed word. -/
def latchedAt (t tw : List JStr) (j : Nat) : Bool :=
  (List.range j).any (presentWrong t tw)

/-- The specification's per-position status rule, stated non-recursively:
latch set means upcoming; missing typed word means upcoming; equal words means
correct; otherwise error. -/
def specStatusAt (t tw : List JStr) (j : Nat) : WordStatus :=
  if latchedAt t tw j then .upcoming
  else
    match tw[j]? with
    | none => .upcoming
    | some x => if t[j]? = some x then .correct else .error

/-- The specification's description of the recorded mismatch: the target/typed
pair at the first diverging position, if any. -/
def firstDivSpec (t tw : List JStr) : Option Mismatch :=
  ((t.zip tw).find? (fun q => decide (q.1 ≠ q.2))).map (fun q => ⟨q.1, q.2⟩)

/-- A practice sentence. -/
structure Sentence where
  id : JStr
  text : JStr
deriving DecidableEq

/-- Deserialized JSON values, the `unknown` input of `sanitizeSentencesPayload`. -/
inductive JVal where
  | jnull
  | jbool (b : Bool)
  | jnum (n : Int)
  | jstr (s : JStr)
  | jarr (elems : List JVal)
  | jobj (fields : List (String × JVal))

/-- The element guard of the sanitizer: `entry` is truthy and `typeof entry`
is `"object"` (arrays and plain objects pass; `null` is falsy and is skipped). -/
def isObjLike : JVal → Bool
  | .jarr _ => true
  | .jobj _ => true
  | _ => false

/-- `Array.isArray` on the top-level payload value. -/
def isArrayVal : JVal → Bool
  | .jarr _ => true
  | _ => false

/-- `Array.isArray(raw) && raw.length > 0`, the non-empty-array test used by
the handler of imported files. -/
def jvalIsNonEmptyArray : JVal → Bool
  | .jarr elems => !elems.isEmpty
  | _ => false

/-- Property access on a deserialized value: an object field lookup; every other
value (including arrays, which have no string-keyed entries after JSON parsing)
yields `undefined`. -/
def getField : JVal → String → Option JVal
  | .jobj fields, key => (fields.find? (fun f => f.1 == key)).map (fun f => f.2)
  | _, _ => none

/-- `typeof v === "string"` refinement of a possibly-missing field. -/
def getStr : Option JVal → Option JStr
  | some (.jstr s) => some s
  | _ => none

/-- The `while (seenIds.has(id)) id = makeId();` loop of the sanitizer, with the
random `makeId` modelled by a generator `gen` consuming a counter, and enough
fuel to exhaust any finite `seen` set. -/
def resolveFresh (gen : Nat → JStr) (seen : List JStr) : JStr → Nat → Nat → JStr × Nat
  | idv, n, 0 => (idv, n)
  | idv, n, fuel + 1 =>
    if idv ∈ seen then resolveFresh gen seen (gen n) (n + 1) fuel else (idv, n)

/-- The candidate sequence tried by `resolveFresh`: the initial id, then the
successive generator outputs. -/
def cand (gen : Nat → JStr) (idv : JStr) (n : Nat) : Nat → JStr
  | 0 => idv
  | k + 1 => gen (n + k)

/-- The element loop of `sanitizeSentencesPayload`: skip non-objects and
elements without a string `text`; take a string non-blank `id` (trimmed) when
present, otherwise generate; regenerate while the id collides with one already
assigned in this load. -/
def sanitizeLoop (gen : Nat → JStr) : List JVal → List JStr → Nat → List Sentence
  | [], _, _ => []
  | e :: rest, seen, n =>
    if isObjLike e then
      match getStr (getField e "text") with
      | some t =>
        let p0 :=
          match getStr (getField e "id") with
          | some i => if 0 < (jsTrim i).length then (jsTrim i, n) else (gen n, n + 1)
          | none => (gen n, n + 1)
        let r := resolveFresh gen seen p0.1 p0.2 (seen.length + 2)
        ⟨r.1, t⟩ :: sanitizeLoop gen rest (r.1 :: seen) r.2
      | none => sanitizeLoop gen rest seen n
    else sanitizeLoop gen rest seen n

/-- `sanitizeSentencesPayload` from the source: `null` (here `none`) unless the
top-level value is an array, otherwise the sanitized sentence list. -/
def sanitizeSentencesPayload (gen : Nat → JStr) : JVal → Option (List Sentence)
  | .jarr elems => some (sanitizeLoop gen elems [] 0)
  | _ => none

/-- The `{ id, text }` object exported for one sentence by `handleExport`. -/
def sentenceToJVal (x : Sentence) : JVal :=
  .jobj [("id", .jstr x.id), ("text", .jstr x.text)]

/-- The serialized document produced by `handleExport`: the `{ id, text }`
objects in collection order. -/
def exportPayload (s : List Sentence) : JVal :=
  .jarr (s.map sentenceToJVal)

/-- The per-element keep/drop rule of the sanitizer, used to state which texts
survive a load. -/
def keptText (e : JVal) : Option JStr :=
  if isObjLike e then getStr (getField e "text") else none

/-- A concrete injective id generator standing in for `makeId` in witnesses. -/
def genG (n : Nat) : JStr := List.replicate n 'g'

/-- The built-in default sentence list from the source. -/
def DEFAULT_SENTENCES : List Sentence :=
  [⟨str "s-1", str "The quick brown fox jumps over the lazy dog."⟩,
   ⟨str "s-2", str "Please open the window before the rain starts."⟩,
   ⟨str "s-3", str "Travel teaches you what books alone never can."⟩]

/-- The in-memory state the claims are about: the sentence collection, the
current index, and the live input value. -/
structure AppState where
  sentences : List Sentence
  currentIndex : Nat
  inputValue : JStr
deriving DecidableEq

/-- The auto-advance update `previous => nextIndex < length ? nextIndex : 0`
(with the empty-collection guard) shared by completion and the Skip button. -/
def advanceIndex (len cur : Nat) : Nat :=
  if len = 0 then 0 else if cur + 1 < len then cur + 1 else 0

/-- `handleInputChange` from the source: store the typed value; when the
normalized input equals the non-empty normalized target, clear the input and
auto-advance. -/
def handleInputChange (st : AppState) (value : JStr) : AppState :=
  match st.sentences[st.currentIndex]? with
  | none => { st with inputValue := value }
  | some cur =>
    let expected := normalize cur.text
    let typed := normalize value
    if 0 < expected.length ∧ typed = expected then
      { st with inputValue := [],
                currentIndex := advanceIndex st.sentences.length st.currentIndex }
    else { st with inputValue := value }

/-- `handleImportFile` from the source, with `none` modelling a JSON parse
failure.  Returns the next state and whether the import succeeded; on failure
the state is returned untouched. -/
def handleImportFile (gen : Nat → JStr) (st : AppState) (raw : Option JVal) :
    AppState × Bool :=
  match raw with
  | none => (st, false)
  | some v =>
    match sanitizeSentencesPayload gen v with
    | none => (st, false)
    | some parsed =>
      if jvalIsNonEmptyArray v ∧ parsed.isEmpty then (st, false)
      else ({ st with sentences := parsed, currentIndex := 0, inputValue := [] }, true)

/-- The clamp effect on the current index that runs whenever the collection
length changes: `0` when empty, `length - 1` when the previous index fell off
the end, unchanged otherwise. -/
def clampIndex (len prev : Nat) : Nat :=
  if len = 0 then 0 else if len ≤ prev then len - 1 else prev

/-- The user/system events that mutate the store (typing, skip, select, file
imports, and the sentence-bank add/update/delete operations). -/
inductive Event where
  | input (value : JStr)
  | skip
  | select (i : Nat)
  | importFile (raw : Option JVal)
  | deleteSentence (idv : JStr)
  | addSentence (idv : JStr) (draft : JStr)
  | updateSentence (idv : JStr) (text : JStr)

/-- The UI can only select indices of rendered sentences. -/
def eventValid (st : AppState) : Event → Prop
  | .select i => i < st.sentences.length
  | _ => True

instance (st : AppState) (ev : Event) : Decidable (eventValid st ev) :=
  match ev with
  | .input _ => isTrue trivial
  | .skip => isTrue trivial
  | .select i => Nat.decLt i st.sentences.length
  | .importFile _ => isTrue trivial
  | .deleteSentence _ => isTrue trivial
  | .addSentence _ _ => isTrue trivial
  | .updateSentence _ _ => isTrue trivial

/-- One step of the event-driven state machine; the clamp effect is applied
after every mutation of the sentence collection, as the source's
`useEffect` on `sentences.length` does. -/
def applyEvent (gen : Nat → JStr) (st : AppState) : Event → AppState
  | .input v => handleInputChange st v
  | .skip => { st with currentIndex := advanceIndex st.sentences.length st.currentIndex }
  | .select i => { st with currentIndex := i }
  | .importFile raw =>
    let st2 := (handleImportFile gen st raw).1
    { st2 with currentIndex := clampIndex st2.sentences.length st2.currentIndex }
  | .deleteSentence idv =>
    let s2 := st.sentences.filter (fun x => decide (x.id ≠ idv))
    { st with sentences := s2, currentIndex := clampIndex s2.length st.currentIndex }
  | .addSentence idv draft =>
    let cleaned := jsTrim draft
    if cleaned.isEmpty then st
    else
      let s2 := st.sentences ++ [⟨idv, cleaned⟩]
      { st with sentences := s2, currentIndex := clampIndex s2.length st.currentIndex }
  | .updateSentence idv text =>
    { st with
      sentences := st.sentences.map (fun x => if x.id = idv then { x with text := text } else x) }

/-- The mount-time restore effect: sanitize the stored sentence document if
present, then clamp a stored index (when it parsed to an integer) to the range
of the restored list, falling back to the default list when nothing was
stored. -/
def restoreEffect (gen : Nat → JStr) (storedSentences : Option JVal)
    (storedIndex : Option Int) (st : AppState) : AppState :=
  let restored : Option (List Sentence) :=
    match storedSentences with
    | none => none
    | some v => sanitizeSentencesPayload gen v
  let st1 :=
    match restored with
    | some parsed => { st with sentences := parsed }
    | none => st
  match storedIndex with
  | none => st1
  | some pIdx =>
    let ref := restored.getD DEFAULT_SENTENCES
    if ref.length = 0 then { st1 with currentIndex := 0 }
    else { st1 with currentIndex := (min (max pIdx 0) ((ref.length : Int) - 1)).toNat }

/-- The current-index invariant: `0` when the collection is empty, otherwise a
valid position. -/
def indexInvariant (st : AppState) : Prop :=
  (st.sentences.length = 0 ∧ st.currentIndex = 0) ∨
    st.currentIndex < st.sentences.length

instance (st : AppState) : Decidable (indexInvariant st) := by
  unfold indexInvariant
  infer_instance

/-! ### Helper lemmas about the word scan -/

theorem map_status_upcoming (ws : List JStr) :
    (ws.map (fun w => (⟨w, .upcoming⟩ : WordState))).map (fun s => s.status)
      = List.replicate ws.length .upcoming := by
  induction ws with
  | nil => rfl
  | cons w rest ih => simp [ih, List.replicate_succ]

theorem map_status_correct (ws : List JStr) :
    (ws.map (fun w => (⟨w, .correct⟩ : WordState))).map (fun s => s.status)
      = List.replicate ws.length .correct := by
  induction ws with
  | nil => rfl
  | cons w rest ih => simp [ih, List.replicate_succ]

theorem map_status_upcoming_comp (ws : List JStr) :
    ws.map ((fun s => s.status) ∘ (fun w => (⟨w, .upcoming⟩ : WordState)))
      = List.replicate ws.length .upcoming := by
  induction ws with
  | nil => rfl
  | cons w rest ih => simp at ih ⊢; simp [ih, List.replicate_succ]

theorem scanGo_found (tw : List JStr) (mm : Option Mismatch) (ws : List JStr) :
    ∀ i : Nat, scanGo tw i true mm ws = (ws.map (fun w => ⟨w, .upcoming⟩), mm) := by
  induction ws with
  | nil => intro i; rfl
  | cons w rest ih => intro i; simp [scanGo, ih]

theorem scanGo_out (tw : List JStr) (mm : Option Mismatch) (ws : List JStr) :
    ∀ i : Nat, tw.length ≤ i →
      scanGo tw i false mm ws = (ws.map (fun w => ⟨w, .upcoming⟩), mm) := by
  induction ws with
  | nil => intro i _; rfl
  | cons w rest ih =>
    intro i h
    have hg : tw[i]? = none := List.getElem?_eq_none h
    simp [scanGo, hg, ih (i + 1) (Nat.le_succ_of_le h)]

theorem scanGo_words (tw ws : List JStr) :
    ∀ (i : Nat) (found : Bool) (mm : Option Mismatch),
      (scanGo tw i found mm ws).1.map (fun s => s.word) = ws := by
  induction ws with
  | nil => intro i f mm; rfl
  | cons w rest ih =>
    intro i f mm
    cases f with
    | true => simp [scanGo, ih]
    | false =>
      cases hg : tw[i]? with
      | none => simp [scanGo, hg, ih]
      | some x =>
        by_cases hx : x = w
        · simp [scanGo, hg, hx, ih]
        · simp [scanGo, hg, hx, ih]

theorem scanGo_shape (tw ws : List JStr) :
    ∀ i : Nat, ∃ a b,
      ((scanGo tw i false none ws).1.map (fun s => s.status)
          = List.replicate a .correct ++ List.replicate b .upcoming) ∨
      ((scanGo tw i false none ws).1.map (fun s => s.status)
          = List.replicate a .correct ++ .error :: List.replicate b .upcoming) := by
  induction ws with
  | nil => intro i; exact ⟨0, 0, Or.inl rfl⟩
  | cons w rest ih =>
    intro i
    cases hg : tw[i]? with
    | none =>
      have hlen : tw.length ≤ i := List.getElem?_eq_none_iff.mp hg
      refine ⟨0, rest.length + 1, Or.inl ?_⟩
      rw [scanGo_out tw none (w :: rest) i hlen]
      simp [map_status_upcoming_comp, List.replicate_succ]
    | some x =>
      by_cases hx : x = w
      · obtain ⟨a, b, h⟩ := ih (i + 1)
        refine ⟨a + 1, b, ?_⟩
        cases h with
        | inl h => exact Or.inl (by simp [scanGo, hg, hx, List.replicate_succ, h])
        | inr h => exact Or.inr (by simp [scanGo, hg, hx, List.replicate_succ, h])
      · refine ⟨0, rest.length, Or.inr ?_⟩
        simp [scanGo, hg, hx, scanGo_found, map_status_upcoming_comp]

theorem scanGo_prefix (tw : List JStr) (a : List JStr) :
    ∀ (b : List JStr) (i : Nat), tw.drop i = a →
      scanGo tw i false none (a ++ b)
        = (a.map (fun w => ⟨w, .correct⟩) ++ b.map (fun w => ⟨w, .upcoming⟩), none) := by
  induction a with
  | nil =>
    intro b i h
    have hlen : tw.length ≤ i := List.drop_eq_nil_iff.mp h
    simp [scanGo_out tw none b i hlen]
  | cons x a2 ih =>
    intro b i h
    have hget : tw[i]? = some x := by
      have h0 : (tw.drop i)[0]? = some x := by rw [h]; simp
      rw [List.getElem?_drop] at h0
      simpa using h0
    have hdrop : tw.drop (i + 1) = a2 := by
      have h2 := List.drop_drop 1 i tw
      rw [h] at h2
      simpa [Nat.add_comm] using h2.symm
    simp [scanGo, hget, ih b (i + 1) hdrop]

theorem scanGo_mm (tw ws : List JStr) :
    ∀ i : Nat,
      (scanGo tw i false none ws).2
        = ((ws.zip (tw.drop i)).find? (fun q => decide (q.1 ≠ q.2))).map
            (fun q => (⟨q.1, q.2⟩ : Mismatch)) := by
  induction ws with
  | nil => intro i; rfl
  | cons w rest ih =>
    intro i
    cases hg : tw[i]? with
    | none =>
      have hlen : tw.length ≤ i := List.getElem?_eq_none_iff.mp hg
      have hd : tw.drop i = [] := List.drop_eq_nil_iff.mpr hlen
      have hd1 : tw.drop (i + 1) = [] := List.drop_eq_nil_iff.mpr (Nat.le_succ_of_le hlen)
      simp [scanGo, hg, ih (i + 1), hd, hd1]
    | some x =>
      obtain ⟨hlt, hgeteq⟩ := List.getElem?_eq_some.mp hg
      have hd : tw.drop i = x :: tw.drop (i + 1) := by
        rw [List.drop_eq_getElem_cons hlt, hgeteq]
      by_cases hx : x = w
      · rw [hd, List.zip_cons_cons, List.find?_cons_of_neg _ (by simp [hx])]
        simp [scanGo, hg, hx, ih (i + 1)]
      · rw [hd, List.zip_cons_cons, List.find?_cons_of_pos _ (by simp [Ne.symm hx])]
        simp [scanGo, hg, hx, scanGo_found]

theorem latchedAt_false (t tw : List JStr) (j : Nat)
    (h : ∀ k, k < j → presentWrong t tw k = false) : latchedAt t tw j = false := by
  by_contra hc
  rw [Bool.not_eq_false, latchedAt, List.any_eq_true] at hc
  obtain ⟨k, hk, hpk⟩ := hc
  rw [List.mem_range] at hk
  rw [h k hk] at hpk
  exact Bool.false_ne_true hpk

theorem latchedAt_true (t tw : List JStr) (k j : Nat) (hk : k < j)
    (h : presentWrong t tw k = true) : latchedAt t tw j = true := by
  rw [latchedAt, List.any_eq_true]
  exact ⟨k, List.mem_range.mpr hk, h⟩

theorem range_map_shift (f : Nat → WordStatus) (n : Nat) :
    (List.range (n + 1)).map f = f 0 :: (List.range n).map (fun j => f (j + 1)) := by
  rw [List.range_succ_eq_map, List.map_cons, List.map_map]
  congr 1

theorem range_map_upcoming (n : Nat) :
    (List.range n).map (fun _ => WordStatus.upcoming) = List.replicate n .upcoming := by
  rw [show (fun _ : Nat => WordStatus.upcoming) = Function.const Nat WordStatus.upcoming from rfl,
    List.map_const, List.length_range]

theorem scanGo_spec_statuses (t tw : List JStr) (ws : List JStr) :
    ∀ i : Nat, t.drop i = ws →
      (∀ k, k < i → presentWrong t tw k = false) →
      (scanGo tw i false none ws).1.map (fun s => s.status)
        = (List.range ws.length).map (fun j => specStatusAt t tw (i + j)) := by
  induction ws with
  | nil => intro i _ _; rfl
  | cons w rest ih =>
    intro i hdrop hnolatch
    have hget : t[i]? = some w := by
      have h0 : (t.drop i)[0]? = some w := by rw [hdrop]; simp
      rw [List.getElem?_drop] at h0
      simpa using h0
    have hdrop1 : t.drop (i + 1) = rest := by
      have h2 := List.drop_drop 1 i t
      rw [hdrop] at h2
      simpa [Nat.add_comm] using h2.symm
    have hlatch : latchedAt t tw i = false := latchedAt_false t tw i hnolatch
    have hshift : (List.range rest.length).map (fun j => specStatusAt t tw (i + (j + 1)))
        = (List.range rest.length).map (fun j => specStatusAt t tw ((i + 1) + j)) := by
      apply List.map_congr_left
      intro a _
      congr 1
      omega
    show (scanGo tw i false none (w :: rest)).1.map (fun s => s.status)
      = (List.range (rest.length + 1)).map (fun j => specStatusAt t tw (i + j))
    rw [range_map_shift, hshift]
    cases hg : tw[i]? with
    | none =>
      have hpw : presentWrong t tw i = false := by simp [presentWrong, hg]
      have hrec := ih (i + 1) hdrop1 (by
        intro k hk
        rcases Nat.lt_succ_iff_lt_or_eq.mp hk with h | h
        · exact hnolatch k h
        · rw [h]; exact hpw)
      have hhead : specStatusAt t tw (i + 0) = WordStatus.upcoming := by
        simp [specStatusAt, hlatch, hg]
      rw [← hrec, hhead]
      simp [scanGo, hg]
    | some x =>
      by_cases hx : x = w
      · have hpw : presentWrong t tw i = false := by
          simp [presentWrong, hg, hget, hx]
        have hrec := ih (i + 1) hdrop1 (by
          intro k hk
          rcases Nat.lt_succ_iff_lt_or_eq.mp hk with h | h
          · exact hnolatch k h
          · rw [h]; exact hpw)
        have hhead : specStatusAt t tw (i + 0) = WordStatus.correct := by
          simp [specStatusAt, hlatch, hg, hget, hx]
        rw [← hrec, hhead]
        simp [scanGo, hg, hx]
      · have hwx : w ≠ x := fun h => hx h.symm
        have hpw : presentWrong t tw i = true := by
          simp [presentWrong, hg, hget, hwx]
        have hhead : specStatusAt t tw (i + 0) = WordStatus.error := by
          simp [specStatusAt, hlatch, hg, hget, hwx]
        have htail : (List.range rest.length).map (fun j => specStatusAt t tw ((i + 1) + j))
            = List.replicate rest.length .upcoming := by
          have hcg : ∀ a ∈ List.range rest.length,
              specStatusAt t tw ((i + 1) + a) = (fun _ : Nat => WordStatus.upcoming) a := by
            intro a _
            have hl : latchedAt t tw ((i + 1) + a) = true :=
              latchedAt_true t tw i _ (by omega) hpw
            simp [specStatusAt, hl]
          rw [List.map_congr_left hcg, range_map_upcoming]
        rw [hhead, htail]
        simp [scanGo, hg, hx, scanGo_found, map_status_upcoming_comp]

/-- Unfolded form of `computeMatch`, for rewriting. -/
theorem computeMatch_eq (target typed : JStr) :
    computeMatch target typed
      = ⟨(scanGo (typedWordsOf typed) 0 false none (targetWordsOf target)).1,
         if (scanGo (typedWordsOf typed) 0 false none (targetWordsOf target)).2 = none
             ∧ (targetWordsOf target).length < (typedWordsOf typed).length then
           some ⟨[], (typedWordsOf typed).getD (targetWordsOf target).length []⟩
         else (scanGo (typedWordsOf typed) 0 false none (targetWordsOf target)).2⟩ := rfl

/-! ### Claims about the match engine -/

/-- C1: for every target sentence and typed text, the per-word status sequence
is produced by a single left-to-right scan over the target words with a
mismatch latch initially false (latch set: upcoming; no typed word: upcoming;
equal: correct; otherwise set the latch, record the mismatch, status error);
in particular for the quoted example word 3 is `error` with
`{expected:"the", typed:"teh"}` and the later words are `upcoming`. -/
theorem claim_C1 :
    (∀ target typed : JStr,
      (computeMatch target typed).wordStates.map (fun s => s.status)
        = (List.range (targetWordsOf target).length).map
            (specStatusAt (targetWordsOf target) (typedWordsOf typed))) ∧
    (computeMatch (str "Please open the window before the rain starts.")
        (str "Please open teh window")).wordStates.map (fun s => s.status)
      = [.correct, .correct, .error, .upcoming, .upcoming, .upcoming, .upcoming, .upcoming] ∧
    (computeMatch (str "Please open the window before the rain starts.")
        (str "Please open teh window")).mismatch = some ⟨str "the", str "teh"⟩ := by
  refine ⟨?_, by decide, by decide⟩
  intro target typed
  have h := scanGo_spec_statuses (targetWordsOf target) (typedWordsOf typed)
      (targetWordsOf target) 0 (List.drop_zero _)
      (fun k hk => absurd hk (Nat.not_lt_zero k))
  calc (computeMatch target typed).wordStates.map (fun s => s.status)
      = (scanGo (typedWordsOf typed) 0 false none (targetWordsOf target)).1.map
          (fun s => s.status) := rfl
    _ = (List.range (targetWordsOf target).length).map
          (fun j => specStatusAt (targetWordsOf target) (typedWordsOf typed) (0 + j)) := h
    _ = (List.range (targetWordsOf target).length).map
          (specStatusAt (targetWordsOf target) (typedWordsOf typed)) := by
        apply List.map_congr_left
        intro a _
        simp

/-- C2: the resulting mismatch is `none` when the scan recorded none and the
typed words do not outnumber the target words; it is the extra-word sentinel
`{expected:"", typed: first excess word}` when the scan recorded none but the
typed words are strictly more numerous; otherwise it is the mismatch recorded
at the first diverging position (characterised by `firstDivSpec`); in
particular target `"a b"` with typed `"a b c"` yields the extra-word mismatch
`{expected:"", typed:"c"}` with no scan error. -/
theorem claim_C2 (target typed : JStr) :
    ((scanGo (typedWordsOf typed) 0 false none (targetWordsOf target)).2 = none →
      (typedWordsOf typed).length ≤ (targetWordsOf target).length →
      (computeMatch target typed).mismatch = none) ∧
    ((scanGo (typedWordsOf typed) 0 false none (targetWordsOf target)).2 = none →
      (targetWordsOf target).length < (typedWordsOf typed).length →
      (computeMatch target typed).mismatch
        = some ⟨[], (typedWordsOf typed).getD (targetWordsOf target).length []⟩) ∧
    (∀ m, (scanGo (typedWordsOf typed) 0 false none (targetWordsOf target)).2 = some m →
      (computeMatch target typed).mismatch = some m) ∧
    (scanGo (typedWordsOf typed) 0 false none (targetWordsOf target)).2
      = firstDivSpec (targetWordsOf target) (typedWordsOf typed) ∧
    (computeMatch (str "a b") (str "a b c")).mismatch = some ⟨[], str "c"⟩ ∧
    (scanGo (typedWordsOf (str "a b c")) 0 false none (targetWordsOf (str "a b"))).2
      = none := by
  refine ⟨?_, ?_, ?_, ?_, by decide, by decide⟩
  · intro h1 h2
    rw [computeMatch_eq]
    show (if _ ∧ _ then _ else _) = none
    rw [if_neg]
    · exact h1
    · intro hc
      exact absurd hc.2 (Nat.not_lt.mpr h2)
  · intro h1 h2
    rw [computeMatch_eq]
    show (if _ ∧ _ then _ else _) = _
    rw [if_pos ⟨h1, h2⟩]
  · intro m hm
    rw [computeMatch_eq]
    show (if _ ∧ _ then _ else _) = _
    rw [if_neg]
    · exact hm
    · intro hc
      rw [hm] at hc
      exact Option.noConfusion hc.1
  · have h := scanGo_mm (typedWordsOf typed) (targetWordsOf target) 0
    rw [List.drop_zero] at h
    exact h

/-- C2 witness: a concrete instance of the null-mismatch clause. -/
theorem claim_C2_witness :
    (computeMatch (str "a b") (str "a")).mismatch = none :=
  (claim_C2 (str "a b") (str "a")).1 (by decide) (by decide)

/-- C3: whenever the typed token sequence is an exact word-for-word prefix of
the target token sequence, the mismatch is null, every filled position is
`correct`, and every later position is `upcoming`. -/
theorem claim_C3 (s p : JStr) (hpre : typedWordsOf p <+: targetWordsOf s) :
    (computeMatch s p).mismatch = none ∧
    (computeMatch s p).wordStates.map (fun w => w.status)
      = List.replicate (typedWordsOf p).length .correct
        ++ List.replicate ((targetWordsOf s).length - (typedWordsOf p).length) .upcoming := by
  obtain ⟨rest, hrest⟩ := hpre
  have hws : targetWordsOf s = typedWordsOf p ++ rest := hrest.symm
  have hscan : scanGo (typedWordsOf p) 0 false none (targetWordsOf s)
      = ((typedWordsOf p).map (fun w => ⟨w, .correct⟩) ++ rest.map (fun w => ⟨w, .upcoming⟩),
         none) := by
    rw [hws]
    exact scanGo_prefix (typedWordsOf p) (typedWordsOf p) rest 0 (List.drop_zero _)
  have hlen : (typedWordsOf p).length ≤ (targetWordsOf s).length := by
    rw [hws, List.length_append]
    omega
  have hrl : rest.length = (targetWordsOf s).length - (typedWordsOf p).length := by
    rw [hws, List.length_append]
    omega
  constructor
  · rw [computeMatch_eq]
    show (if _ ∧ _ then _ else _) = none
    rw [hscan, if_neg (fun hc => absurd hc.2 (Nat.not_lt.mpr hlen))]
  · rw [computeMatch_eq]
    show ((scanGo (typedWordsOf p) 0 false none (targetWordsOf s)).1.map fun w => w.status) = _
    rw [hscan]
    show (((typedWordsOf p).map (fun w => (⟨w, .correct⟩ : WordState))
        ++ rest.map (fun w => (⟨w, .upcoming⟩ : WordState))).map fun w => w.status) = _
    rw [List.map_append, map_status_correct, map_status_upcoming, hrl]

/-- C3 witness: a concrete two-word prefix of a three-word sentence. -/
theorem claim_C3_witness :
    (computeMatch (str "a b c") (str " a  b ")).mismatch = none ∧
    (computeMatch (str "a b c") (str " a  b ")).wordStates.map (fun w => w.status)
      = List.replicate (typedWordsOf (str " a  b ")).length .correct
        ++ List.replicate
            ((targetWordsOf (str "a b c")).length - (typedWordsOf (str " a  b ")).length)
            .upcoming :=
  claim_C3 (str "a b c") (str " a  b ") (by decide)

/-- C10: the status sequence has exactly one entry per target word (the words
are reproduced in order) and always consists of a run of `correct`, then at
most one `error`, then only `upcoming`. -/
theorem claim_C10 (target typed : JStr) :
    (computeMatch target typed).wordStates.map (fun s => s.word) = targetWordsOf target ∧
    ∃ a b, ((computeMatch target typed).wordStates.map (fun s => s.status)
        = List.replicate a .correct ++ List.replicate b .upcoming) ∨
      ((computeMatch target typed).wordStates.map (fun s => s.status)
        = List.replicate a .correct ++ .error :: List.replicate b .upcoming) := by
  constructor
  · show (scanGo (typedWordsOf typed) 0 false none (targetWordsOf target)).1.map
        (fun s => s.word) = targetWordsOf target
    exact scanGo_words (typedWordsOf typed) (targetWordsOf target) 0 false none
  · show ∃ a b, ((scanGo (typedWordsOf typed) 0 false none (targetWordsOf target)).1.map
          (fun s => s.status) = _) ∨ _
    exact scanGo_shape (typedWordsOf typed) (targetWordsOf target) 0

/-! ### Helper lemmas about the sanitizer -/

theorem resolveFresh_stop (gen : Nat → JStr) (seen : List JStr) (idv : JStr) (n fuel : Nat)
    (hfuel : 0 < fuel) (h : idv ∉ seen) : resolveFresh gen seen idv n fuel = (idv, n) := by
  cases fuel with
  | zero => omega
  | succ f => simp [resolveFresh, h]

theorem cand_shift (gen : Nat → JStr) (n : Nat) :
    ∀ j, cand gen (gen n) (n + 1) j = gen (n + j) := by
  intro j
  cases j with
  | zero => simp [cand]
  | succ m =>
    show gen ((n + 1) + m) = gen (n + (m + 1))
    exact congrArg gen (by omega)

theorem resolveFresh_fresh (gen : Nat → JStr) (seen : List JStr) :
    ∀ (fuel : Nat) (idv : JStr) (n : Nat),
      (∃ k, k < fuel ∧ cand gen idv n k ∉ seen) →
      (resolveFresh gen seen idv n fuel).1 ∉ seen := by
  intro fuel
  induction fuel with
  | zero =>
    intro idv n h
    obtain ⟨k, hk, _⟩ := h
    omega
  | succ f ih =>
    intro idv n h
    by_cases hin : idv ∈ seen
    · obtain ⟨k, hk, hc⟩ := h
      cases k with
      | zero => exact absurd hin hc
      | succ j =>
        show (resolveFresh gen seen idv n (f + 1)).1 ∉ seen
        rw [show resolveFresh gen seen idv n (f + 1)
            = resolveFresh gen seen (gen n) (n + 1) f by simp [resolveFresh, hin]]
        apply ih
        refine ⟨j, by omega, ?_⟩
        rw [cand_shift]
        exact hc
    · rw [resolveFresh_stop gen seen idv n (f + 1) (Nat.succ_pos f) hin]
      exact hin

theorem exists_fresh_cand (gen : Nat → JStr) (hinj : Function.Injective gen)
    (seen : List JStr) (idv : JStr) (n : Nat) :
    ∃ k, k < seen.length + 2 ∧ cand gen idv n k ∉ seen := by
  by_contra hc
  push_neg at hc
  have hall : ∀ m, m < seen.length + 1 → gen (n + m) ∈ seen := by
    intro m hm
    have := hc (m + 1) (by omega)
    simpa [cand] using this
  have hnodup : ((List.range (seen.length + 1)).map (fun m => gen (n + m))).Nodup := by
    apply List.Nodup.map
    · intro a b hab
      have := hinj hab
      omega
    · exact List.nodup_range _
  have hsub : ((List.range (seen.length + 1)).map (fun m => gen (n + m))).toFinset
      ⊆ seen.toFinset := by
    intro x hx
    rw [List.mem_toFinset] at hx
    obtain ⟨m, hm, hxm⟩ := List.mem_map.mp hx
    rw [List.mem_range] at hm
    rw [List.mem_toFinset]
    rw [← hxm]
    exact hall m hm
  have h1 : ((List.range (seen.length + 1)).map (fun m => gen (n + m))).toFinset.card
      = seen.length + 1 := by
    rw [List.toFinset_card_of_nodup hnodup]
    simp
  have h2 := Finset.card_le_card hsub
  have h3 := List.toFinset_card_le seen
  omega

theorem fresh_resolve (gen : Nat → JStr) (hinj : Function.Injective gen)
    (seen : List JStr) (idv : JStr) (n : Nat) :
    (resolveFresh gen seen idv n (seen.length + 2)).1 ∉ seen :=
  resolveFresh_fresh gen seen (seen.length + 2) idv n (exists_fresh_cand gen hinj seen idv n)

theorem sanitizeLoop_ids (gen : Nat → JStr) (hinj : Function.Injective gen)
    (entries : List JVal) :
    ∀ (seen : List JStr) (n : Nat),
      (∀ x ∈ sanitizeLoop gen entries seen n, x.id ∉ seen) ∧
      ((sanitizeLoop gen entries seen n).map (fun x => x.id)).Nodup := by
  induction entries with
  | nil => intro seen n; exact ⟨fun x hx => absurd hx (List.not_mem_nil x), List.nodup_nil⟩
  | cons e rest ih =>
    intro seen n
    by_cases hobj : isObjLike e = true
    · cases ht : getStr (getField e "text") with
      | none => simpa [sanitizeLoop, hobj, ht] using ih seen n
      | some t =>
        have heq : sanitizeLoop gen (e :: rest) seen n
            = (let p0 :=
                match getStr (getField e "id") with
                | some i => if 0 < (jsTrim i).length then (jsTrim i, n) else (gen n, n + 1)
                | none => (gen n, n + 1)
               let r := resolveFresh gen seen p0.1 p0.2 (seen.length + 2)
               ⟨r.1, t⟩ :: sanitizeLoop gen rest (r.1 :: seen) r.2) := by
          simp [sanitizeLoop, hobj, ht]
        rw [heq]
        generalize (match getStr (getField e "id") with
          | some i => if 0 < (jsTrim i).length then (jsTrim i, n) else (gen n, n + 1)
          | none => (gen n, n + 1) : JStr × Nat) = p0
        have hfresh := fresh_resolve gen hinj seen p0.1 p0.2
        obtain ⟨ihmem, ihnodup⟩ :=
          ih ((resolveFresh gen seen p0.1 p0.2 (seen.length + 2)).1 :: seen)
            (resolveFresh gen seen p0.1 p0.2 (seen.length + 2)).2
        constructor
        · intro x hx
          rcases List.mem_cons.mp hx with hx | hx
          · rw [hx]
            exact hfresh
          · have := ihmem x hx
            intro hmem
            exact this (List.mem_cons_of_mem _ hmem)
        · rw [List.map_cons]
          apply List.Nodup.cons
          · intro hmem
            obtain ⟨x, hx, hxid⟩ := List.mem_map.mp hmem
            have := ihmem x hx
            rw [hxid] at this
            exact this (List.mem_cons_self _ _)
          · exact ihnodup
    · simpa [sanitizeLoop, hobj] using ih seen n

theorem sanitizeLoop_texts (gen : Nat → JStr) (entries : List JVal) :
    ∀ (seen : List JStr) (n : Nat),
      (sanitizeLoop gen entries seen n).map (fun x => x.text)
        = entries.filterMap keptText := by
  induction entries with
  | nil => intro seen n; rfl
  | cons e rest ih =>
    intro seen n
    by_cases hobj : isObjLike e = true
    · cases ht : getStr (getField e "text") with
      | none => simp [sanitizeLoop, hobj, ht, keptText, List.filterMap_cons, ih]
      | some t => simp [sanitizeLoop, hobj, ht, keptText, List.filterMap_cons, ih]
    · simp [sanitizeLoop, hobj, keptText, List.filterMap_cons, ih]

theorem genG_injective : Function.Injective genG := by
  intro a b h
  have := congrArg List.length h
  simpa [genG] using this

theorem genG_ne_x : ∀ n, genG n ≠ str "x" := by
  intro n h
  cases n with
  | zero => simp [genG, str] at h
  | succ m =>
    rw [genG, List.replicate_succ] at h
    have : 'g' = 'x' := by
      have := List.head_eq_of_cons_eq h
      exact this
    exact absurd this (by decide)

theorem sanitizeLoop_roundtrip (gen : Nat → JStr) (s : List Sentence) :
    ∀ (seen : List JStr) (n : Nat),
      ((s.map (fun x => x.id)).Nodup) →
      (∀ x ∈ s, jsTrim x.id = x.id ∧ x.id ≠ [] ∧ x.id ∉ seen) →
      sanitizeLoop gen (s.map sentenceToJVal) seen n = s := by
  induction s with
  | nil => intro seen n _ _; rfl
  | cons x rest ih =>
    intro seen n hnodup hmem
    obtain ⟨htrim, hne, hnotin⟩ := hmem x (List.mem_cons_self _ _)
    have hobj : isObjLike (sentenceToJVal x) = true := rfl
    have htext : getStr (getField (sentenceToJVal x) "text") = some x.text := rfl
    have hid : getStr (getField (sentenceToJVal x) "id") = some x.id := rfl
    have hpos : 0 < x.id.length := List.length_pos.mpr hne
    have hres : resolveFresh gen seen x.id n (seen.length + 2) = (x.id, n) :=
      resolveFresh_stop gen seen x.id n _ (by omega) hnotin
    rw [List.map_cons, List.nodup_cons] at hnodup
    obtain ⟨hxid, hrestnodup⟩ := hnodup
    have hstep : sanitizeLoop gen ((x :: rest).map sentenceToJVal) seen n
        = ⟨x.id, x.text⟩ :: sanitizeLoop gen (rest.map sentenceToJVal) (x.id :: seen) n := by
      simp [sanitizeLoop, hobj, htext, hid, htrim, hpos, hres]
    rw [hstep]
    have htail : sanitizeLoop gen (rest.map sentenceToJVal) (x.id :: seen) n = rest := by
      apply ih
      · exact hrestnodup
      · intro y hy
        obtain ⟨ht, hn, hs⟩ := hmem y (List.mem_cons_of_mem _ hy)
        refine ⟨ht, hn, ?_⟩
        intro hin
        rcases List.mem_cons.mp hin with h | h
        · exact hxid (List.mem_map.mpr ⟨y, hy, h⟩)
        · exact hs h
    rw [htail]

/-! ### Claims about the sanitizer and the store -/

/-- C5: sanitization returns invalid (`none`) exactly when the top-level value
is not an array; otherwise it keeps, in order, exactly the object elements
carrying a string `text` field (text taken verbatim, empty strings included)
and drops every other element; ids come from a non-blank string `id` field when
present and are freshly generated otherwise or on collision; in particular the
quoted three-element payload drops the first element, keeps text "y" under a
generated id, and keeps text "z" under the literal id "x". -/
theorem claim_C5 (gen : Nat → JStr) (hinj : Function.Injective gen)
    (hx : ∀ n, gen n ≠ str "x") :
    (∀ v, sanitizeSentencesPayload gen v = none ↔ isArrayVal v = false) ∧
    (∀ elems, ∃ r, sanitizeSentencesPayload gen (.jarr elems) = some r ∧
        r.map (fun x => x.text) = elems.filterMap keptText ∧
        (r.map (fun x => x.id)).Nodup) ∧
    sanitizeSentencesPayload gen
        (.jarr [.jobj [("id", .jstr (str "x"))],
                .jobj [("text", .jstr (str "y"))],
                .jobj [("id", .jstr (str "x")), ("text", .jstr (str "z"))]])
      = some [⟨gen 0, str "y"⟩, ⟨str "x", str "z"⟩] := by
  refine ⟨?_, ?_, ?_⟩
  · intro v
    cases v <;> simp [sanitizeSentencesPayload, isArrayVal]
  · intro elems
    exact ⟨sanitizeLoop gen elems [] 0, rfl, sanitizeLoop_texts gen elems [] 0,
      (sanitizeLoop_ids gen hinj elems [] 0).2⟩
  · have hmemx : str "x" ∉ [gen 0] := by
      intro h
      exact hx 0 (List.mem_singleton.mp h).symm
    have hr2 : resolveFresh gen [gen 0] (str "x") 1 3 = (str "x", 1) :=
      resolveFresh_stop gen [gen 0] (str "x") 1 3 (by omega) hmemx
    show (some [(⟨gen 0, str "y"⟩ : Sentence),
        ⟨(resolveFresh gen [gen 0] (str "x") 1 3).1, str "z"⟩] : Option (List Sentence))
      = some [⟨gen 0, str "y"⟩, ⟨str "x", str "z"⟩]
    rw [hr2]

/-- C5 witness: the three-element example evaluated at the concrete injective
generator `genG`. -/
theorem claim_C5_witness :
    sanitizeSentencesPayload genG
        (.jarr [.jobj [("id", .jstr (str "x"))],
                .jobj [("text", .jstr (str "y"))],
                .jobj [("id", .jstr (str "x")), ("text", .jstr (str "z"))]])
      = some [⟨genG 0, str "y"⟩, ⟨str "x", str "z"⟩] :=
  (claim_C5 genG genG_injective genG_ne_x).2.2

/-- C6 counterexample: a collection with the unique, non-blank id `" a "`
(which carries surrounding whitespace) does not survive a save/load round trip,
because the sanitizer trims ids on load. -/
theorem claim_C6_counterexample :
    (([(⟨str " a ", str "t"⟩ : Sentence)]).map (fun x => x.id)).Nodup ∧
    jsTrim (str " a ") ≠ [] ∧
    sanitizeSentencesPayload genG (exportPayload [⟨str " a ", str "t"⟩])
      ≠ some [⟨str " a ", str "t"⟩] :=
  ⟨by decide, by decide, by decide⟩

/-- C6 (amended): for every collection whose ids are pairwise distinct,
non-empty and free of leading or trailing whitespace, loading the exported
document returns the collection unchanged. -/
theorem claim_C6 (gen : Nat → JStr) (s : List Sentence)
    (hnodup : (s.map (fun x => x.id)).Nodup)
    (hids : ∀ x ∈ s, jsTrim x.id = x.id ∧ x.id ≠ []) :
    sanitizeSentencesPayload gen (exportPayload s) = some s := by
  show some (sanitizeLoop gen (s.map sentenceToJVal) [] 0) = some s
  rw [sanitizeLoop_roundtrip gen s [] 0 hnodup
    (fun x hx => ⟨(hids x hx).1, (hids x hx).2, List.not_mem_nil _⟩)]

/-- C6 witness: the default sentence list round-trips. -/
theorem claim_C6_witness :
    sanitizeSentencesPayload genG (exportPayload DEFAULT_SENTENCES)
      = some DEFAULT_SENTENCES :=
  claim_C6 genG DEFAULT_SENTENCES (by decide) (by decide)

/-- C9: every payload accepted by sanitization yields pairwise distinct ids. -/
theorem claim_C9 (gen : Nat → JStr) (hinj : Function.Injective gen) (v : JVal)
    (r : List Sentence) (h : sanitizeSentencesPayload gen v = some r) :
    (r.map (fun x => x.id)).Nodup := by
  cases v with
  | jarr elems =>
    have h2 : sanitizeLoop gen elems [] 0 = r := Option.some.inj h
    rw [← h2]
    exact (sanitizeLoop_ids gen hinj elems [] 0).2
  | jnull => simp [sanitizeSentencesPayload] at h
  | jbool b => simp [sanitizeSentencesPayload] at h
  | jnum n => simp [sanitizeSentencesPayload] at h
  | jstr s2 => simp [sanitizeSentencesPayload] at h
  | jobj fs => simp [sanitizeSentencesPayload] at h

/-- C9 witness: a two-element payload loaded with the concrete generator. -/
theorem claim_C9_witness :
    (([⟨[], str "hello"⟩, ⟨str "a", str "b"⟩] : List Sentence).map (fun x => x.id)).Nodup :=
  claim_C9 genG genG_injective
    (.jarr [.jobj [("text", .jstr (str "hello"))],
            .jobj [("id", .jstr (str "a")), ("text", .jstr (str "b"))]])
    [⟨[], str "hello"⟩, ⟨str "a", str "b"⟩] (by decide)

/-! ### Helper lemmas about indices -/

theorem advanceIndex_lt (len cur : Nat) (h : 0 < len) : advanceIndex len cur < len := by
  unfold advanceIndex
  rw [if_neg (by omega)]
  by_cases hlt : cur + 1 < len
  · rw [if_pos hlt]
    exact hlt
  · rw [if_neg hlt]
    exact h

theorem clampIndex_invariant (len prev : Nat) :
    (len = 0 ∧ clampIndex len prev = 0) ∨ clampIndex len prev < len := by
  by_cases h : len = 0
  · exact Or.inl ⟨h, by rw [clampIndex, if_pos h]⟩
  · right
    rw [clampIndex, if_neg h]
    by_cases h2 : len ≤ prev
    · rw [if_pos h2]
      omega
    · rw [if_neg h2]
      omega

/-- C4: completion is judged by comparing the normalized target with the
normalized typed value; it fires exactly when the normalized target is
non-empty and the two agree, in which case the index advances to
`(current + 1) % length` and the input is cleared, while otherwise the state
only records the typed value; irregular internal or trailing spacing does not
block completion. -/
theorem claim_C4 (st : AppState) (value : JStr) (cur : Sentence)
    (hget : st.sentences[st.currentIndex]? = some cur) :
    (0 < (normalize cur.text).length ∧ normalize value = normalize cur.text →
      handleInputChange st value
        = { sentences := st.sentences,
            currentIndex := (st.currentIndex + 1) % st.sentences.length,
            inputValue := [] }) ∧
    (¬(0 < (normalize cur.text).length ∧ normalize value = normalize cur.text) →
      handleInputChange st value = { st with inputValue := value }) ∧
    normalize (str "The  quick brown fox jumps over the lazy dog.  ")
      = normalize (str "The quick brown fox jumps over the lazy dog.") := by
  have hidx : st.currentIndex < st.sentences.length := by
    obtain ⟨h, _⟩ := List.getElem?_eq_some.mp hget
    exact h
  refine ⟨?_, ?_, by decide⟩
  · intro hc
    have hadv : advanceIndex st.sentences.length st.currentIndex
        = (st.currentIndex + 1) % st.sentences.length := by
      unfold advanceIndex
      rw [if_neg (by omega)]
      by_cases hlt : st.currentIndex + 1 < st.sentences.length
      · rw [if_pos hlt, Nat.mod_eq_of_lt hlt]
      · rw [if_neg hlt]
        have h2 : st.currentIndex + 1 = st.sentences.length := by omega
        rw [h2, Nat.mod_self]
    simp only [handleInputChange, hget]
    rw [if_pos hc, hadv]
  · intro hc
    simp only [handleInputChange, hget]
    rw [if_neg hc]

/-- C4 witness: typing the first default sentence exactly advances the index
from 0 to 1 and clears the input. -/
theorem claim_C4_witness :
    handleInputChange ⟨DEFAULT_SENTENCES, 0, []⟩
        (str "The quick brown fox jumps over the lazy dog.")
      = { sentences := DEFAULT_SENTENCES,
          currentIndex := (0 + 1) % DEFAULT_SENTENCES.length,
          inputValue := [] } :=
  (claim_C4 ⟨DEFAULT_SENTENCES, 0, []⟩
      (str "The quick brown fox jumps over the lazy dog.")
      ⟨str "s-1", str "The quick brown fox jumps over the lazy dog."⟩
      (by decide)).1 (by decide)

/-- C7: a failed JSON parse, a non-array top level, or a non-empty array whose
sanitization keeps nothing leaves the state untouched and reports failure; an
empty raw array succeeds and yields the empty collection; a successful import
replaces the collection, resets the index to 0 and clears the input. -/
theorem claim_C7 (gen : Nat → JStr) (st : AppState) :
    (handleImportFile gen st none = (st, false)) ∧
    (∀ v, isArrayVal v = false → handleImportFile gen st (some v) = (st, false)) ∧
    (∀ elems, elems ≠ [] → sanitizeLoop gen elems [] 0 = [] →
      handleImportFile gen st (some (.jarr elems)) = (st, false)) ∧
    (handleImportFile gen st (some (.jarr []))
      = ({ st with sentences := [], currentIndex := 0, inputValue := [] }, true)) ∧
    (∀ v parsed, sanitizeSentencesPayload gen v = some parsed →
      ¬(jvalIsNonEmptyArray v = true ∧ parsed = []) →
      handleImportFile gen st (some v)
        = ({ st with sentences := parsed, currentIndex := 0, inputValue := [] }, true)) := by
  refine ⟨rfl, ?_, ?_, ?_, ?_⟩
  · intro v hv
    cases v with
    | jarr elems => simp [isArrayVal] at hv
    | jnull => rfl
    | jbool b => rfl
    | jnum n => rfl
    | jstr s2 => rfl
    | jobj fs => rfl
  · intro elems h1 h2
    show (if jvalIsNonEmptyArray (.jarr elems) ∧ (sanitizeLoop gen elems [] 0).isEmpty
        then ((st, false) : AppState × Bool)
        else ({ st with sentences := sanitizeLoop gen elems [] 0,
                        currentIndex := 0, inputValue := [] }, true)) = (st, false)
    rw [if_pos ⟨by simp [jvalIsNonEmptyArray, List.isEmpty_iff, h1], by simp [h2]⟩]
  · rfl
  · intro v parsed hs hc
    cases v with
    | jarr elems =>
      have h2 : sanitizeLoop gen elems [] 0 = parsed := Option.some.inj hs
      show (if jvalIsNonEmptyArray (.jarr elems) ∧ (sanitizeLoop gen elems [] 0).isEmpty
          then ((st, false) : AppState × Bool)
          else ({ st with sentences := sanitizeLoop gen elems [] 0,
                          currentIndex := 0, inputValue := [] }, true))
        = ({ st with sentences := parsed, currentIndex := 0, inputValue := [] }, true)
      rw [if_neg]
      · rw [h2]
      · intro hcc
        exact hc ⟨hcc.1, List.isEmpty_iff.mp (h2 ▸ hcc.2)⟩
    | jnull => simp [sanitizeSentencesPayload] at hs
    | jbool b => simp [sanitizeSentencesPayload] at hs
    | jnum n => simp [sanitizeSentencesPayload] at hs
    | jstr s2 => simp [sanitizeSentencesPayload] at hs
    | jobj fs => simp [sanitizeSentencesPayload] at hs

/-- C7 witness: importing a non-array payload fails and leaves the state
untouched. -/
theorem claim_C7_witness :
    handleImportFile genG ⟨DEFAULT_SENTENCES, 1, []⟩ (some (.jnum 3))
      = (⟨DEFAULT_SENTENCES, 1, []⟩, false) :=
  (claim_C7 genG ⟨DEFAULT_SENTENCES, 1, []⟩).2.1 (.jnum 3) (by decide)

/-- C8: the current index is 0 on an empty collection and otherwise a valid
position, this invariant is preserved by every event (with the clamp applied on
collection length changes, e.g. shrinking to length 3 with previous index 4
clamps to 2), and an index restored from storage is clamped into the range of
the concurrently restored list (or the built-in default list). -/
theorem claim_C8 :
    (∀ len prev, (len = 0 → clampIndex len prev = 0) ∧
      (len ≠ 0 → clampIndex len prev < len) ∧
      (len ≠ 0 → len ≤ prev → clampIndex len prev = len - 1) ∧
      (prev < len → clampIndex len prev = prev)) ∧
    clampIndex 3 4 = 2 ∧
    (∀ (gen : Nat → JStr) (st : AppState) (ev : Event), indexInvariant st →
      eventValid st ev → indexInvariant (applyEvent gen st ev)) ∧
    (∀ (gen : Nat → JStr) (storedS : Option JVal) (storedI : Option Int),
      indexInvariant (restoreEffect gen storedS storedI ⟨DEFAULT_SENTENCES, 0, []⟩)) := by
  refine ⟨?_, by decide, ?_, ?_⟩
  · intro len prev
    refine ⟨?_, ?_, ?_, ?_⟩
    · intro h
      rw [clampIndex, if_pos h]
    · intro h
      rw [clampIndex, if_neg h]
      by_cases h2 : len ≤ prev
      · rw [if_pos h2]
        omega
      · rw [if_neg h2]
        omega
    · intro h h2
      rw [clampIndex, if_neg h, if_pos h2]
    · intro h
      rw [clampIndex, if_neg (by omega), if_neg (by omega)]
  · intro gen st ev hinv hval
    cases ev with
    | input v =>
      show indexInvariant (handleInputChange st v)
      unfold handleInputChange
      cases hget : st.sentences[st.currentIndex]? with
      | none => exact hinv
      | some cur =>
        dsimp only
        by_cases hc : 0 < (normalize cur.text).length ∧ normalize v = normalize cur.text
        · rw [if_pos hc]
          have hidx : st.currentIndex < st.sentences.length := by
            obtain ⟨h, _⟩ := List.getElem?_eq_some.mp hget
            exact h
          exact Or.inr (advanceIndex_lt _ _ (by omega))
        · rw [if_neg hc]
          exact hinv
    | skip =>
      by_cases h : st.sentences.length = 0
      · refine Or.inl ⟨h, ?_⟩
        show advanceIndex st.sentences.length st.currentIndex = 0
        unfold advanceIndex
        rw [if_pos h]
      · exact Or.inr (advanceIndex_lt _ _ (Nat.pos_of_ne_zero h))
    | select i => exact Or.inr hval
    | importFile raw => exact clampIndex_invariant _ _
    | deleteSentence idv => exact clampIndex_invariant _ _
    | addSentence idv draft =>
      show indexInvariant (if (jsTrim draft).isEmpty then st else _)
      by_cases h : (jsTrim draft).isEmpty
      · rw [if_pos h]
        exact hinv
      · rw [if_neg h]
        exact clampIndex_invariant _ _
    | updateSentence idv text =>
      simpa [applyEvent, indexInvariant, List.length_map] using hinv
  · intro gen ss si
    have h3 : DEFAULT_SENTENCES.length = 3 := rfl
    cases ss with
    | none =>
      cases si with
      | none =>
        simp only [restoreEffect]
        exact Or.inr (by decide)
      | some p =>
        simp only [restoreEffect, Option.getD_none]
        rw [if_neg (by decide : ¬(DEFAULT_SENTENCES.length = 0))]
        refine Or.inr ?_
        show (min (max p 0) ((DEFAULT_SENTENCES.length : Int) - 1)).toNat
          < DEFAULT_SENTENCES.length
        rw [h3]
        omega
    | some v =>
      cases hs : sanitizeSentencesPayload gen v with
      | none =>
        cases si with
        | none =>
          simp only [restoreEffect, hs]
          exact Or.inr (by decide)
        | some p =>
          simp only [restoreEffect, hs, Option.getD_none]
          rw [if_neg (by decide : ¬(DEFAULT_SENTENCES.length = 0))]
          refine Or.inr ?_
          show (min (max p 0) ((DEFAULT_SENTENCES.length : Int) - 1)).toNat
            < DEFAULT_SENTENCES.length
          rw [h3]
          omega
      | some parsed =>
        cases si with
        | none =>
          simp only [restoreEffect, hs]
          rcases Nat.eq_zero_or_pos parsed.length with h | h
          · exact Or.inl ⟨h, rfl⟩
          · exact Or.inr h
        | some p =>
          simp only [restoreEffect, hs, Option.getD_some]
          by_cases hl : parsed.length = 0
          · rw [if_pos hl]
            exact Or.inl ⟨hl, rfl⟩
          · rw [if_neg hl]
            refine Or.inr ?_
            show (min (max p 0) ((parsed.length : Int) - 1)).toNat < parsed.length
            omega

/-- C8 witness: deleting the last default sentence while practicing it clamps
the index back into range. -/
theorem claim_C8_witness :
    indexInvariant (applyEvent genG ⟨DEFAULT_SENTENCES, 2, []⟩
      (Event.deleteSentence (str "s-3"))) :=
  claim_C8.2.2.1 genG ⟨DEFAULT_SENTENCES, 2, []⟩ (Event.deleteSentence (str "s-3"))
    (by decide) (by decide)

end DictateEnglish
